import Mathlib

/-!
Verification of the `md-inject` command-line tool (main.go).

The program reads content from stdin, pushes it through a Go
`text/template`, and injects the result into a target file between the
marker tags

  `<!-- START md-inject:ID -->`   and   `<!-- END md-inject:ID -->`.

This file gives a shallow embedding of the program's pure core:

  * Go strings are modelled as `List Char`;
  * `strings.Index` is modelled by `strIndex`, returning `Option Nat`
    instead of Go's `-1` convention (`none` = not found);
  * `injectContent` (main.go, lines 161-183) is translated clause by
    clause, including the inoperative guard `startTagPos > startTagPos`
    on line 177, which the Go source literally contains;
  * `applyTemplate` (main.go, lines 144-159) defers to Go's
    `text/template`; the library is modelled here for the fragment the
    program relies on: literal text, and actions delimited by double
    braces whose trimmed body is the field `.stdin`.  Other action
    bodies and unterminated actions are modelled as errors.  Text
    outside double-brace delimiters is emitted verbatim, exactly as the
    Go library does;
  * the decision tail of `main` (lines 62-89) is modelled by `runMain`,
    returning an exit code and the optional file write.  I/O failures
    (stdin read, file read, file write) are outside the pure model.
-/

namespace MdInject

/-- Go strings are modelled as lists of characters. -/
abbrev Str := List Char

/-- Conversion from Lean string literals, used for concrete inputs. -/
def str (s : String) : Str := s.toList

/-- Model of Go `strings.Index hay pat`: the least index at which `pat`
occurs in `hay` as a contiguous substring, `none` when there is no
occurrence (Go returns `-1`).  `strIndex hay [] = some 0`, as in Go. -/
def strIndex (hay pat : Str) : Option Nat :=
  if pat.isPrefixOf hay then some 0
  else
    match hay with
    | [] => none
    | _ :: t => (strIndex t pat).map (· + 1)

/-- The error values `injectContent` can produce (main.go lines 172-178);
each carries the tag that the corresponding `fmt.Errorf` message names. -/
inductive InjectError where
  | missingStartTag (tag : Str)
  | missingEndTag (tag : Str)
  | tagOrder
  deriving DecidableEq

/-- Translation of `injectContent` (main.go lines 161-183).

```go
startTagPos := strings.Index(original, startTag)
endTagPos := strings.Index(original, endTag)
if startTagPos < 0 && endTagPos < 0 {
    return fmt.Sprintf("%s\n%s\n%s\n%s\n", original, startTag, addition, endTag), nil
}
if startTagPos < 0 { return "", fmt.Errorf("missing start tag %s while end tag is present", startTag) }
if endTagPos < 0 { return "", fmt.Errorf("missing end tag %s while start tag is present", endTag) }
if startTagPos > startTagPos { return "", fmt.Errorf("end tag is before the start tag") }
return fmt.Sprintf("%s\n%s\n%s", original[:startTagPos+len(startTag)], addition, original[endTagPos:]), nil
```

The guard `startTagPos > startTagPos` is kept exactly as written in the
source. -/
def injectContent (original addition startTag endTag : Str) :
    Except InjectError Str :=
  match strIndex original startTag, strIndex original endTag with
  | none, none =>
      .ok (original ++ ['\n'] ++ startTag ++ ['\n'] ++ addition ++ ['\n'] ++ endTag ++ ['\n'])
  | none, some _ => .error (.missingStartTag startTag)
  | some _, none => .error (.missingEndTag endTag)
  | some startTagPos, some endTagPos =>
      if startTagPos > startTagPos then .error .tagOrder
      else
        .ok (original.take (startTagPos + startTag.length) ++ ['\n'] ++ addition
              ++ ['\n'] ++ original.drop endTagPos)

/-- One parsed node of a Go `text/template`: literal text, or the action
whose body is the field `.stdin` (the only field the program binds). -/
inductive TmplNode where
  | text (s : Str)
  | stdinField

/-- Strip leading and trailing whitespace, as the template lexer does
around tokens inside an action. -/
def trimWs (l : Str) : Str :=
  ((l.dropWhile Char.isWhitespace).reverse.dropWhile Char.isWhitespace).reverse

/-- Fuel-bounded scanner for `text/template` parsing: text up to the next
opening delimiter `\x7b\x7b` is literal; the action body up to the closing
delimiter `\x7d\x7d` must trim to `.stdin`; anything else is a parse
error, as is an unterminated action.  Each recursive step consumes at
least four characters of the template, so fuel `t.length + 1` never runs
out. -/
def parseTmplAux : Nat → Str → Option (List TmplNode)
  | 0, _ => none
  | fuel + 1, t =>
    match strIndex t ['{', '{'] with
    | none => some [TmplNode.text t]
    | some k =>
      let rest := t.drop (k + 2)
      match strIndex rest ['}', '}'] with
      | none => none
      | some m =>
        if trimWs (rest.take m) = str ".stdin" then
          (parseTmplAux fuel (rest.drop (m + 2))).map
            (fun ns => TmplNode.text (t.take k) :: TmplNode.stdinField :: ns)
        else none

/-- Model of `template.New("").Parse(tmpl)` on the fragment described at
`parseTmplAux`. -/
def parseTmpl (t : Str) : Option (List TmplNode) :=
  parseTmplAux (t.length + 1) t

/-- Model of `Template.Execute` with the data map binding `stdin` to
`content`: literal text verbatim, the `.stdin` field as `content`. -/
def renderTmpl (content : Str) (ns : List TmplNode) : Str :=
  ns.foldr (fun n acc =>
    (match n with
     | TmplNode.text s => s
     | TmplNode.stdinField => content) ++ acc) []

/-- Translation of `applyTemplate` (main.go lines 144-159): parse the
template, then execute it with `stdin` bound to `content`; `none` models
the error returns. -/
def applyTemplate (tmpl content : Str) : Option Str :=
  (parseTmpl tmpl).map (renderTmpl content)

/-- `defaultOutputTemplate` (main.go line 24): the literal Go string
`"\x7b .stdin \x7d"` — single braces, written here with escapes. -/
def defaultOutputTemplate : Str := str "\x7b .stdin \x7d"

/-- `fmt.Sprintf(tagStartFormat, id)` with
`tagStartFormat = "<!-- START md-inject:%s -->"` (main.go line 22). -/
def tagStart (id : Str) : Str := str "<!-- START md-inject:" ++ id ++ str " -->"

/-- `fmt.Sprintf(tagEndFormat, id)` with
`tagEndFormat = "<!-- END md-inject:%s -->"` (main.go line 23). -/
def tagEnd (id : Str) : Str := str "<!-- END md-inject:" ++ id ++ str " -->"

/-- Observable outcome of one run of `main`: the process exit code, and
the content written to the target file (`none` = file untouched). -/
structure RunResult where
  exitCode : Nat
  written : Option Str
  deriving DecidableEq

/-- Translation of the tail of `main` (main.go lines 47-89): apply the
template to stdin, inject between the tags derived from `id`, then in
order: no-op exit 0 when nothing changed, exit 2 under `--fail-on-diff`,
exit 0 without writing under `--print-only`, otherwise write the file and
exit 0.  Template and injection errors exit 1.  I/O read/write failures
are outside the model (the write is assumed to succeed). -/
def runMain (id tmpl : Str) (failOnDiff printOnly : Bool)
    (stdinContent oldContent : Str) : RunResult :=
  match applyTemplate tmpl stdinContent with
  | none => ⟨1, none⟩
  | some contentToInject =>
    match injectContent oldContent contentToInject (tagStart id) (tagEnd id) with
    | .error _ => ⟨1, none⟩
    | .ok updatedContent =>
      if oldContent = updatedContent then ⟨0, none⟩
      else if failOnDiff then ⟨2, none⟩
      else if printOnly then ⟨0, none⟩
      else ⟨0, some updatedContent⟩

/-- Number of positions of `hay` at which `pat` occurs (occurrences may
overlap); used to state the uniqueness part of the spec's invariant. -/
def occCount (hay pat : Str) : Nat :=
  (List.range (hay.length + 1)).countP (fun k => pat.isPrefixOf (hay.drop k))

/-! ### Library bridges

Thin wrappers around the standard list lemmas, restated over `Str`. -/

theorem isPre_of_isPrefixOf {l₁ l₂ : Str} (h : l₁.isPrefixOf l₂ = true) : l₁ <+: l₂ :=
  List.isPrefixOf_iff_prefix.mp h

theorem isPrefixOf_of_isPre {l₁ l₂ : Str} (h : l₁ <+: l₂) : l₁.isPrefixOf l₂ = true :=
  List.isPrefixOf_iff_prefix.mpr h

theorem take_isPre (n : Nat) (l : Str) : l.take n <+: l :=
  List.take_prefix n l

theorem eq_take_of_isPre {l₁ l₂ : Str} (h : l₁ <+: l₂) : l₁ = l₂.take l₁.length :=
  List.prefix_iff_eq_take.mp h

theorem isPre_app (l₁ l₂ : Str) : l₁ <+: l₁ ++ l₂ :=
  List.prefix_append l₁ l₂

theorem nil_of_isPre_nil {p : Str} (h : p <+: []) : p = [] :=
  List.prefix_nil.mp h

theorem drop_isSuf (n : Nat) (l : Str) : l.drop n <:+ l :=
  List.drop_suffix n l

theorem isInf_iff {l₁ l₂ : Str} : l₁ <:+: l₂ ↔ ∃ t, l₁ <+: t ∧ t <:+ l₂ :=
  List.infix_iff_prefix_suffix

theorem nil_isInf (l : Str) : ([] : Str) <:+: l :=
  List.IsPrefix.isInfix List.nil_prefix

/-! ### Characterisation of `strIndex`

`strIndex hay pat = some i` means `pat` occurs at `i` and at no earlier
position; `none` means `pat` occurs nowhere.  "Occurs at `k`" is
rendered as `pat <+: hay.drop k`. -/

theorem strIndex_isPre {hay : Str} : ∀ {pat : Str} {i : Nat},
    strIndex hay pat = some i → pat <+: hay.drop i := by
  induction hay with
  | nil =>
    intro pat i h
    rw [strIndex.eq_def] at h
    split at h
    · next hp => cases h; simpa using isPre_of_isPrefixOf hp
    · cases h
  | cons c t ih =>
    intro pat i h
    rw [strIndex.eq_def] at h
    split at h
    · next hp => cases h; simpa using isPre_of_isPrefixOf hp
    · rcases Option.map_eq_some'.mp h with ⟨i', hi', rfl⟩
      simpa [List.drop_succ_cons] using ih hi'

theorem strIndex_min {hay : Str} : ∀ {pat : Str} {i : Nat},
    strIndex hay pat = some i → ∀ k, k < i → ¬ pat <+: hay.drop k := by
  induction hay with
  | nil =>
    intro pat i h k hk
    rw [strIndex.eq_def] at h
    split at h
    · cases h; omega
    · cases h
  | cons c t ih =>
    intro pat i h k hk
    rw [strIndex.eq_def] at h
    split at h
    · cases h; omega
    · next hp =>
      rcases Option.map_eq_some'.mp h with ⟨i', hi', rfl⟩
      match k with
      | 0 => simpa using fun hc => hp (isPrefixOf_of_isPre hc)
      | k' + 1 =>
        simpa [List.drop_succ_cons] using ih hi' k' (by omega)

theorem strIndex_none {hay : Str} : ∀ {pat : Str},
    strIndex hay pat = none → ∀ k, ¬ pat <+: hay.drop k := by
  induction hay with
  | nil =>
    intro pat h k
    rw [strIndex.eq_def] at h
    split at h
    · cases h
    · next hp =>
      simpa using fun hc => hp (isPrefixOf_of_isPre (by simpa using hc))
  | cons c t ih =>
    intro pat h k
    rw [strIndex.eq_def] at h
    split at h
    · cases h
    · next hp =>
      have h2 : (strIndex t pat).map (· + 1) = none := h
      have ht : strIndex t pat = none := Option.map_eq_none'.mp h2
      match k with
      | 0 => simpa using fun hc => hp (isPrefixOf_of_isPre hc)
      | k' + 1 => simpa [List.drop_succ_cons] using ih ht k'

theorem strIndex_intro {hay : Str} : ∀ {pat : Str} {i : Nat},
    pat <+: hay.drop i → (∀ k, k < i → ¬ pat <+: hay.drop k) →
    strIndex hay pat = some i := by
  induction hay with
  | nil =>
    intro pat i h1 h2
    have hp : pat = [] := nil_of_isPre_nil (by simpa using h1)
    have hi : i = 0 := by
      by_contra hne
      exact h2 0 (by omega) (by simp [hp])
    subst hp; subst hi
    rw [strIndex.eq_def]
    simp [List.isPrefixOf]
  | cons c t ih =>
    intro pat i h1 h2
    match i with
    | 0 =>
      rw [strIndex.eq_def, if_pos (isPrefixOf_of_isPre (by simpa using h1))]
    | i' + 1 =>
      have hguard : ¬ pat.isPrefixOf (c :: t) = true := fun hc =>
        h2 0 (by omega) (by simpa using isPre_of_isPrefixOf hc)
      rw [strIndex.eq_def, if_neg hguard]
      have := @ih pat i' (by simpa [List.drop_succ_cons] using h1)
        (fun k hk => by simpa [List.drop_succ_cons] using h2 (k + 1) (by omega))
      simp [this]

theorem strIndex_none_intro {hay pat : Str}
    (h : ∀ k, ¬ pat <+: hay.drop k) : strIndex hay pat = none := by
  rcases he : strIndex hay pat with _ | i
  · rfl
  · exact absurd (strIndex_isPre he) (h i)

theorem strIndex_zero {hay pat : Str} (h : pat <+: hay) : strIndex hay pat = some 0 := by
  rw [strIndex.eq_def, if_pos (isPrefixOf_of_isPre h)]

theorem strIndex_le_len {hay : Str} : ∀ {pat : Str} {i : Nat},
    strIndex hay pat = some i → i ≤ hay.length := by
  induction hay with
  | nil =>
    intro pat i h
    rw [strIndex.eq_def] at h
    split at h
    · cases h; omega
    · cases h
  | cons c t ih =>
    intro pat i h
    rw [strIndex.eq_def] at h
    split at h
    · cases h; omega
    · rcases Option.map_eq_some'.mp h with ⟨i', hi', rfl⟩
      have := ih hi'
      simp; omega

theorem strIndex_le {hay pat : Str} {i : Nat}
    (h : strIndex hay pat = some i) : i + pat.length ≤ hay.length := by
  have h1 := List.IsPrefix.length_le (strIndex_isPre h)
  rw [List.length_drop] at h1
  have h2 := strIndex_le_len h
  omega

/-! ### Occurrences across concatenation

A pattern that avoids a separator character cannot straddle it, so
occurrences in `U ++ c :: V` locate wholly inside `U` or wholly inside
`V`. -/

theorem isPre_of_app_of_le {p U V : Str} (h : p <+: U ++ V)
    (hle : p.length ≤ U.length) : p <+: U := by
  have h1 := eq_take_of_isPre h
  rw [List.take_append_eq_append_take] at h1
  have h2 : p.length - U.length = 0 := by omega
  rw [h2, List.take_zero, List.append_nil] at h1
  rw [h1]
  exact take_isPre _ _

theorem isPre_split {p U V : Str} {c : Char} (hc : c ∉ p)
    (h : p <+: U ++ c :: V) : p <+: U := by
  rcases le_or_lt p.length U.length with hle | hlt
  · exact isPre_of_app_of_le h hle
  · exfalso
    have h1 := eq_take_of_isPre h
    rw [List.take_append_eq_append_take, List.take_of_length_le (by omega)] at h1
    have h3 : p.length - U.length = (p.length - U.length - 1) + 1 := by omega
    rw [h3, List.take_succ_cons] at h1
    exact hc (h1 ▸ List.mem_append.mpr (Or.inr (List.mem_cons_self c _)))

theorem drop_app_le {U V : Str} {k : Nat} (hk : k ≤ U.length) :
    (U ++ V).drop k = U.drop k ++ V := by
  rw [List.drop_append_eq_append_drop]
  have h2 : k - U.length = 0 := by omega
  rw [h2, List.drop_zero]

theorem drop_app_add (U V : Str) (m : Nat) :
    (U ++ V).drop (U.length + m) = V.drop m := by
  rw [List.drop_append_eq_append_drop,
    List.drop_eq_nil_of_le (by omega : U.length ≤ U.length + m)]
  have h2 : U.length + m - U.length = m := by omega
  rw [h2, List.nil_append]

theorem take_app_len (U V : Str) : (U ++ V).take U.length = U :=
  List.take_left U V

theorem take_app_of_len {U V : Str} {n : Nat} (hn : n = U.length) :
    (U ++ V).take n = U := by
  rw [hn]
  exact take_app_len U V

theorem occ_in_left {p U V : Str} {c : Char} {k : Nat} (hk : k ≤ U.length)
    (hc : c ∉ p) (h : p <+: (U ++ c :: V).drop k) : p <+: U.drop k := by
  rw [drop_app_le hk] at h
  exact isPre_split hc h

theorem occ_shift {p U V : Str} {c : Char} {k : Nat} (hk : U.length + 1 ≤ k)
    (h : p <+: (U ++ c :: V).drop k) : p <+: V.drop (k - U.length - 1) := by
  rw [List.drop_append_eq_append_drop,
    List.drop_eq_nil_of_le (by omega : U.length ≤ k), List.nil_append] at h
  have h2 : k - U.length = (k - U.length - 1) + 1 := by omega
  rw [h2, List.drop_succ_cons] at h
  exact h

/-- Where the first occurrence of `pat` lands in `U ++ c :: V` when `pat`
avoids `c` and does not occur in `U`: exactly where it lands in `V`,
shifted past `U` and the separator. -/
theorem strIndex_seg {U V pat : Str} {c : Char} (hc : c ∉ pat)
    (hU : ∀ k, ¬ pat <+: U.drop k) :
    strIndex (U ++ c :: V) pat = (strIndex V pat).map (· + (U.length + 1)) := by
  rcases hV : strIndex V pat with _ | m
  · simp only [Option.map_none']
    apply strIndex_none_intro
    intro k hk
    rcases le_or_lt k U.length with hle | hgt
    · exact hU k (occ_in_left hle hc hk)
    · exact strIndex_none hV _ (occ_shift hgt hk)
  · simp only [Option.map_some']
    apply strIndex_intro
    · have he : (U ++ c :: V).drop (m + (U.length + 1)) = V.drop m := by
        have h1 : m + (U.length + 1) = U.length + (m + 1) := by omega
        rw [h1, drop_app_add U (c :: V) (m + 1), List.drop_succ_cons]
      rw [he]
      exact strIndex_isPre hV
    · intro k hk hocc
      rcases le_or_lt k U.length with hle | hgt
      · exact hU k (occ_in_left hle hc hocc)
      · exact strIndex_min hV (k - U.length - 1) (by omega) (occ_shift hgt hocc)

theorem noOcc_of_not_isInf {pat a : Str} (h : ¬ pat <:+: a) :
    ∀ k, ¬ pat <+: a.drop k :=
  fun k hk => h (List.IsInfix.trans (List.IsPrefix.isInfix hk)
    (List.IsSuffix.isInfix (drop_isSuf k a)))

theorem ne_nil_of_not_isInf {pat a : Str} (h : ¬ pat <:+: a) : pat ≠ [] :=
  fun hnil => h (hnil ▸ nil_isInf a)

theorem strIndex_none_iff {o p : Str} : strIndex o p = none ↔ ¬ p <:+: o := by
  constructor
  · intro h hinf
    rcases isInf_iff.mp hinf with ⟨t, hpt, u, hut⟩
    have ht : t = o.drop u.length := by rw [← hut, List.drop_left]
    exact strIndex_none h u.length (ht ▸ hpt)
  · intro h
    exact strIndex_none_intro (noOcc_of_not_isInf h)

theorem isInf_of_strIndex {o p : Str} {i : Nat}
    (h : strIndex o p = some i) : p <:+: o :=
  List.IsInfix.trans (List.IsPrefix.isInfix (strIndex_isPre h))
    (List.IsSuffix.isInfix (drop_isSuf i o))

/-! ### Slicing around a located occurrence -/

theorem drop_of_take_occ {o p : Str} {i : Nat} (h : p <+: o.drop i) :
    (o.take (i + p.length)).drop i = p := by
  rw [List.drop_take]
  have h2 : i + p.length - i = p.length := by omega
  rw [h2]
  exact (eq_take_of_isPre h).symm

theorem take_tag_split {o p : Str} {i : Nat} (h : p <+: o.drop i) :
    o.take (i + p.length) = o.take i ++ p := by
  have h1 : o.take (i + p.length)
      = (o.take (i + p.length)).take i ++ (o.take (i + p.length)).drop i :=
    (List.take_append_drop i _).symm
  rw [List.take_take, Nat.min_eq_left (by omega : i ≤ i + p.length),
    drop_of_take_occ h] at h1
  exact h1

theorem drop_tag_split {o p : Str} {j : Nat} (h : p <+: o.drop j) :
    o.drop j = p ++ o.drop (j + p.length) := by
  rcases h with ⟨t, ht⟩
  have h2 := congrArg (List.drop p.length) ht
  rw [List.drop_left, List.drop_drop] at h2
  rw [← ht, h2]

/-- Dropping past the first three blocks of `P ++ \n ++ a ++ \n ++ S`
lands exactly on `S`. -/
theorem drop_blk (P a S : Str) :
    (P ++ '\n' :: (a ++ '\n' :: S)).drop (P.length + (a.length + 2)) = S := by
  rw [drop_app_add P ('\n' :: (a ++ '\n' :: S)) (a.length + 2)]
  have h1 : a.length + 2 = (a.length + 1) + 1 := by omega
  rw [h1, List.drop_succ_cons]
  rw [drop_app_add a ('\n' :: S) 1, List.drop_succ_cons, List.drop_zero]

/-! ### Branch equations for `injectContent` -/

theorem injectContent_app_eq {o a s e : Str}
    (hs : strIndex o s = none) (he : strIndex o e = none) :
    injectContent o a s e
      = .ok (o ++ ['\n'] ++ s ++ ['\n'] ++ a ++ ['\n'] ++ e ++ ['\n']) := by
  unfold injectContent
  rw [hs, he]

theorem injectContent_replace_eq {o a s e : Str} {i j : Nat}
    (hs : strIndex o s = some i) (he : strIndex o e = some j) :
    injectContent o a s e
      = .ok (o.take (i + s.length) ++ ['\n'] ++ a ++ ['\n'] ++ o.drop j) := by
  unfold injectContent
  rw [hs, he]
  simp

theorem injectContent_missStart_eq {o a s e : Str} {j : Nat}
    (hs : strIndex o s = none) (he : strIndex o e = some j) :
    injectContent o a s e = .error (.missingStartTag s) := by
  unfold injectContent
  rw [hs, he]

theorem injectContent_missEnd_eq {o a s e : Str} {i : Nat}
    (hs : strIndex o s = some i) (he : strIndex o e = none) :
    injectContent o a s e = .error (.missingEndTag e) := by
  unfold injectContent
  rw [hs, he]

/-- Inversion: a successful call ran either the append branch or the
replace branch. -/
theorem injectContent_ok_cases {o a s e r : Str}
    (h : injectContent o a s e = .ok r) :
    (strIndex o s = none ∧ strIndex o e = none ∧
      r = o ++ ['\n'] ++ s ++ ['\n'] ++ a ++ ['\n'] ++ e ++ ['\n']) ∨
    (∃ i j, strIndex o s = some i ∧ strIndex o e = some j ∧
      r = o.take (i + s.length) ++ ['\n'] ++ a ++ ['\n'] ++ o.drop j) := by
  rcases hs : strIndex o s with _ | i <;> rcases he : strIndex o e with _ | j
  · left
    rw [injectContent_app_eq hs he] at h
    exact ⟨rfl, rfl, (Except.ok.inj h).symm⟩
  · rw [injectContent_missStart_eq hs he] at h
    cases h
  · rw [injectContent_missEnd_eq hs he] at h
    cases h
  · right
    rw [injectContent_replace_eq hs he] at h
    exact ⟨i, j, rfl, rfl, (Except.ok.inj h).symm⟩

/-! ### Claim C1 -/

/-- Claim C1 (code bug): the spec demands a `TagOrderError` whenever the
first end-tag occurrence precedes the first start-tag occurrence, but on
`original = "ES"`, `startTag = "S"`, `endTag = "E"` (end tag at 0, start
tag at 1) `injectContent` succeeds and corrupts the document: the guard
on main.go line 177 compares `startTagPos` with itself. -/
theorem c1_order_inversion_not_an_error :
    injectContent (str "ES") (str "a") (str "S") (str "E") = .ok (str "ES\na\nES") :=
  rfl

/-! ### Claim C2 -/

/-- Claim C2 (code bug): the default template `"\x7b .stdin \x7d"` (main.go
line 24) uses single braces, which Go's `text/template` treats as literal
text, so applying it yields the constant string `"\x7b .stdin \x7d"` for
every input — not the input itself as the spec's pass-through claim
requires.  In particular it differs from the input on `"hello"`. -/
theorem c2_default_template_is_constant :
    (∀ c : Str, applyTemplate defaultOutputTemplate c = some defaultOutputTemplate) ∧
      applyTemplate defaultOutputTemplate (str "hello") ≠ some (str "hello") := by
  have hp : parseTmpl defaultOutputTemplate = some [TmplNode.text defaultOutputTemplate] := rfl
  have key : ∀ c : Str, applyTemplate defaultOutputTemplate c = some defaultOutputTemplate := by
    intro c
    unfold applyTemplate
    rw [hp, Option.map_some']
    simp [renderTmpl]
  refine ⟨key, fun hcontra => ?_⟩
  rw [key (str "hello")] at hcontra
  exact absurd (Option.some.inj hcontra) (by decide)

/-! ### Claim C3 -/

/-- Claim C3 counterexample: on `original = "xSyEz"` (start tag `"S"` at
1, end tag `"E"` at 3) the result is `"xS\na\nEz"`, not the spec's
`"xS\naEz"`: the code inserts a newline between the addition and the end
tag. -/
theorem c3_counterexample :
    injectContent (str "xSyEz") (str "a") (str "S") (str "E") = .ok (str "xS\na\nEz") ∧
      str "xS\na\nEz" ≠ str "xS\naEz" :=
  ⟨rfl, by decide⟩

/-- Claim C3 (corrected): in replace mode the result is the original up
to and including the first start tag, a newline, the addition, a newline
(this newline is what the claim omits), then the original from the first
end tag on. -/
theorem c3_replace_mode {o a s e : Str} {i j : Nat}
    (hs : strIndex o s = some i) (he : strIndex o e = some j) (_hij : i < j) :
    injectContent o a s e
      = .ok (o.take (i + s.length) ++ ['\n'] ++ a ++ ['\n'] ++ o.drop j) :=
  injectContent_replace_eq hs he

/-- Claim C3 witness: the corrected replace-mode equation at a concrete
document. -/
theorem c3_witness :
    injectContent (str "xSyEz") (str "n") (str "S") (str "E")
      = .ok ((str "xSyEz").take (1 + (str "S").length) ++ ['\n'] ++ str "n"
          ++ ['\n'] ++ (str "xSyEz").drop 3) :=
  c3_replace_mode (by decide) (by decide) (by decide)

/-! ### Claim C4 -/

/-- Claim C4 (confirmed): when neither tag occurs in the original, the
call succeeds with exactly
`original ++ "\n" ++ startTag ++ "\n" ++ addition ++ "\n" ++ endTag ++ "\n"`. -/
theorem c4_append_both_absent {o a s e : Str}
    (hs : ¬ s <:+: o) (he : ¬ e <:+: o) :
    injectContent o a s e
      = .ok (o ++ ['\n'] ++ s ++ ['\n'] ++ a ++ ['\n'] ++ e ++ ['\n']) :=
  injectContent_app_eq (strIndex_none_iff.mpr hs) (strIndex_none_iff.mpr he)

/-- Claim C4 witness: the spec's own append-mode scenario,
`original = "A\n"`, `addition = "new"`, `id = "x"`. -/
theorem c4_witness :
    injectContent (str "A\n") (str "new") (tagStart (str "x")) (tagEnd (str "x"))
      = .ok (str "A\n" ++ ['\n'] ++ tagStart (str "x") ++ ['\n'] ++ str "new"
          ++ ['\n'] ++ tagEnd (str "x") ++ ['\n']) :=
  c4_append_both_absent (by decide) (by decide)

/-! ### Claim C7 -/

/-- Claim C7 (confirmed): with exactly one tag present the call fails,
naming the missing tag: `missingEndTag endTag` when only the start tag
occurs, `missingStartTag startTag` when only the end tag occurs. -/
theorem c7_one_tag_missing {o a s e : Str} :
    (s <:+: o → ¬ e <:+: o → injectContent o a s e = .error (.missingEndTag e)) ∧
    (¬ s <:+: o → e <:+: o → injectContent o a s e = .error (.missingStartTag s)) := by
  constructor
  · intro hs he
    rcases hsi : strIndex o s with _ | i
    · exact absurd hs (strIndex_none_iff.mp hsi)
    · exact injectContent_missEnd_eq hsi (strIndex_none_iff.mpr he)
  · intro hs he
    rcases hei : strIndex o e with _ | j
    · exact absurd he (strIndex_none_iff.mp hei)
    · exact injectContent_missStart_eq (strIndex_none_iff.mpr hs) hei

/-- Claim C7 witness: both error cases at concrete documents. -/
theorem c7_witness :
    injectContent (str "aSb") (str "n") (str "S") (str "E")
        = .error (.missingEndTag (str "E")) ∧
      injectContent (str "aEb") (str "n") (str "S") (str "E")
        = .error (.missingStartTag (str "S")) :=
  ⟨c7_one_tag_missing.1 (by decide) (by decide),
   c7_one_tag_missing.2 (by decide) (by decide)⟩

/-! ### Claim C9 -/

/-- Claim C9 (confirmed): the tag-order error branch is unreachable —
`injectContent` never returns the `tagOrder` error, and whenever both
tags occur (in either order) it returns a result string. -/
theorem c9_tagOrder_unreachable {o a s e : Str} :
    injectContent o a s e ≠ .error .tagOrder ∧
      (s <:+: o → e <:+: o → ∃ r, injectContent o a s e = .ok r) := by
  constructor
  · rcases hs : strIndex o s with _ | i <;> rcases he : strIndex o e with _ | j
    · rw [injectContent_app_eq hs he]
      intro hc
      cases hc
    · rw [injectContent_missStart_eq hs he]
      intro hc
      exact InjectError.noConfusion (Except.error.inj hc)
    · rw [injectContent_missEnd_eq hs he]
      intro hc
      exact InjectError.noConfusion (Except.error.inj hc)
    · rw [injectContent_replace_eq hs he]
      intro hc
      cases hc
  · intro hsi hei
    rcases hs : strIndex o s with _ | i
    · exact absurd hsi (strIndex_none_iff.mp hs)
    rcases he : strIndex o e with _ | j
    · exact absurd hei (strIndex_none_iff.mp he)
    exact ⟨_, injectContent_replace_eq hs he⟩

/-- Claim C9 witness: a document whose end tag precedes its start tag
still produces a result and not the order error. -/
theorem c9_witness :
    injectContent (str "ES") (str "n") (str "S") (str "E") ≠ .error .tagOrder ∧
      (∃ r, injectContent (str "ES") (str "n") (str "S") (str "E") = .ok r) :=
  ⟨c9_tagOrder_unreachable.1, c9_tagOrder_unreachable.2 (by decide) (by decide)⟩

/-! ### Claim C10 -/

/-- Claim C10 (confirmed): `injectContent` never inspects the addition —
for fixed original and tags, either every addition yields the same error,
or there are a prefix and a suffix such that every addition `a` yields
`prefix ++ a ++ suffix`. -/
theorem c10_addition_opaque {o s e : Str} :
    (∃ err, ∀ a, injectContent o a s e = .error err) ∨
      (∃ p q, ∀ a, injectContent o a s e = .ok (p ++ a ++ q)) := by
  rcases hs : strIndex o s with _ | i <;> rcases he : strIndex o e with _ | j
  · right
    refine ⟨o ++ ['\n'] ++ s ++ ['\n'], ['\n'] ++ e ++ ['\n'], fun a => ?_⟩
    rw [injectContent_app_eq hs he]
    simp [List.append_assoc]
  · left
    exact ⟨.missingStartTag s, fun a => injectContent_missStart_eq hs he⟩
  · left
    exact ⟨.missingEndTag e, fun a => injectContent_missEnd_eq hs he⟩
  · right
    refine ⟨o.take (i + s.length) ++ ['\n'], ['\n'] ++ o.drop j, fun a => ?_⟩
    rw [injectContent_replace_eq hs he]
    simp [List.append_assoc]

/-! ### Claim C8 -/

/-- Claim C8 (confirmed): when the computed content differs from the file
content and `--fail-on-diff` is set, the run exits 2 without writing;
when the computed content equals the file content, the run exits 0 as a
no-op regardless of the flags. -/
theorem c8_failOnDiff_and_noop {id tmpl stdin old content updated : Str}
    {fod po : Bool}
    (h1 : applyTemplate tmpl stdin = some content)
    (h2 : injectContent old content (tagStart id) (tagEnd id) = .ok updated) :
    (updated ≠ old → fod = true → runMain id tmpl fod po stdin old = ⟨2, none⟩) ∧
      (updated = old → runMain id tmpl fod po stdin old = ⟨0, none⟩) := by
  constructor
  · intro hne hf
    simp only [runMain, h1, h2]
    rw [if_neg (fun hEq => hne hEq.symm), hf]
    simp
  · intro hEq
    simp only [runMain, h1, h2]
    rw [if_pos hEq.symm]

/-- Claim C8 witness: a concrete out-of-date run under `--fail-on-diff`
exits 2 and writes nothing. -/
theorem c8_witness :
    runMain (str "x") defaultOutputTemplate true false (str "hi") (str "A")
      = ⟨2, none⟩ :=
  (c8_failOnDiff_and_noop
    (show applyTemplate defaultOutputTemplate (str "hi") = some defaultOutputTemplate
      from rfl)
    (show injectContent (str "A") defaultOutputTemplate
          (tagStart (str "x")) (tagEnd (str "x"))
        = .ok (str "A" ++ ['\n'] ++ tagStart (str "x") ++ ['\n']
            ++ defaultOutputTemplate ++ ['\n'] ++ tagEnd (str "x") ++ ['\n'])
      from rfl)).1 (by decide) rfl

/-! ### Claim C5 -/

/-- Claim C5 counterexample: inject `addition = "S"` (the start tag
itself) into an empty document with tags `"S"`, `"E"`.  The call succeeds
with `"\nS\nS\nE\n"`, which contains the start tag twice — not exactly
once — and nowhere contains start tag, addition and end tag contiguously
(the code separates them with newlines). -/
theorem c5_counterexample :
    injectContent (str "") (str "S") (str "S") (str "E") = .ok (str "\nS\nS\nE\n") ∧
      occCount (str "\nS\nS\nE\n") (str "S") = 2 ∧
      ¬ (str "S" ++ str "S" ++ str "E") <:+: str "\nS\nS\nE\n" :=
  ⟨rfl, by decide, by decide⟩

/-- Claim C5 (corrected): after a successful injection the document
contains the block start tag, newline, addition, newline, end tag as one
contiguous substring, and the text around that block is untouched
original text: a prefix and a suffix of the original in replace mode, the
whole original plus a newline (and a trailing newline) in append mode.
Exactly-one-occurrence does not hold in general, since the addition is
inserted unvalidated. -/
theorem c5_injected_block {o a s e r : Str}
    (h : injectContent o a s e = .ok r) :
    ∃ p q, r = p ++ s ++ ['\n'] ++ a ++ ['\n'] ++ e ++ q ∧
      ((p <+: o ∧ q <:+ o) ∨ (p = o ++ ['\n'] ∧ q = ['\n'])) := by
  rcases injectContent_ok_cases h with ⟨hs, he, hr⟩ | ⟨i, j, hs, he, hr⟩
  · exact ⟨o ++ ['\n'], ['\n'], hr, Or.inr ⟨rfl, rfl⟩⟩
  · have hso := strIndex_isPre hs
    have heo := strIndex_isPre he
    refine ⟨o.take i, o.drop (j + e.length), ?_,
      Or.inl ⟨take_isPre i o, drop_isSuf _ o⟩⟩
    rw [hr, take_tag_split hso, drop_tag_split heo]
    simp [List.append_assoc]

/-- Claim C5 witness: the corrected invariant at a concrete replace-mode
run. -/
theorem c5_witness :
    ∃ p q, str "uS\nn\nEw"
        = p ++ str "S" ++ ['\n'] ++ str "n" ++ ['\n'] ++ str "E" ++ q ∧
      ((p <+: str "uSvEw" ∧ q <:+ str "uSvEw") ∨
        (p = str "uSvEw" ++ ['\n'] ∧ q = ['\n'])) :=
  c5_injected_block
    (show injectContent (str "uSvEw") (str "n") (str "S") (str "E")
        = .ok (str "uS\nn\nEw") from rfl)

/-! ### Claim C6 -/

/-- Claim C6 counterexample: idempotence fails when the addition contains
the end tag.  With `original = ""`, `addition = "E"`, tags `"S"`, `"E"`,
the first run yields `"\nS\nE\nE\n"`; the second run anchors on the end
tag inside the injected content and yields the strictly longer
`"\nS\nE\nE\nE\n"`. -/
theorem c6_counterexample :
    injectContent (str "") (str "E") (str "S") (str "E") = .ok (str "\nS\nE\nE\n") ∧
      injectContent (str "\nS\nE\nE\n") (str "E") (str "S") (str "E")
        = .ok (str "\nS\nE\nE\nE\n") ∧
      str "\nS\nE\nE\nE\n" ≠ str "\nS\nE\nE\n" :=
  ⟨rfl, rfl, by decide⟩

/-- Claim C6 (corrected): injection is idempotent provided the tags
contain no newline, the end tag occurs in neither the addition nor the
start tag, and (when both tags occur in the original) the first end tag
does not begin before the end of the first start tag.  Under these
hypotheses a successful run's output is a fixed point of a second run. -/
theorem c6_idempotent {o a s e r : Str}
    (hns : '\n' ∉ s) (hne : '\n' ∉ e)
    (hea : ¬ e <:+: a) (hes : ¬ e <:+: s)
    (hord : ∀ i j, strIndex o s = some i → strIndex o e = some j →
      i + s.length ≤ j)
    (h : injectContent o a s e = .ok r) :
    injectContent r a s e = .ok r := by
  rcases injectContent_ok_cases h with ⟨hs, he, hr⟩ | ⟨i, j, hs, he, hr⟩
  · -- append branch
    have hr' : r = o ++ '\n' :: (s ++ '\n' :: (a ++ '\n' :: (e ++ ['\n']))) := by
      rw [hr]
      simp [List.append_assoc]
    have hOs := strIndex_none hs
    have hOe := strIndex_none he
    have hrs : strIndex r s = some (0 + (o.length + 1)) := by
      rw [hr', strIndex_seg hns hOs,
        strIndex_zero (isPre_app s ('\n' :: (a ++ '\n' :: (e ++ ['\n']))))]
      rfl
    have hre : strIndex r e
        = some (((0 + (a.length + 1)) + (s.length + 1)) + (o.length + 1)) := by
      rw [hr', strIndex_seg hne hOe,
        strIndex_seg hne (noOcc_of_not_isInf hes),
        strIndex_seg hne (noOcc_of_not_isInf hea),
        strIndex_zero (isPre_app e ['\n'])]
      rfl
    rw [injectContent_replace_eq hrs hre]
    have hsplit : r = (o ++ '\n' :: s) ++ '\n' :: (a ++ '\n' :: (e ++ ['\n'])) := by
      rw [hr']
      simp [List.append_assoc]
    have hP : r.take ((0 + (o.length + 1)) + s.length) = o ++ '\n' :: s := by
      rw [hsplit]
      have hlen : (0 + (o.length + 1)) + s.length = (o ++ '\n' :: s).length := by
        simp
        omega
      rw [hlen, take_app_len]
    have hS : r.drop (((0 + (a.length + 1)) + (s.length + 1)) + (o.length + 1))
        = e ++ ['\n'] := by
      have hpos : ((0 + (a.length + 1)) + (s.length + 1)) + (o.length + 1)
          = (o ++ '\n' :: s).length + (a.length + 2) := by
        simp
        omega
      rw [hsplit, hpos, drop_blk]
    rw [hP, hS, hr']
    simp [List.append_assoc]
  · -- replace branch
    have hio := strIndex_le hs
    have hij := hord i j hs he
    have hso := strIndex_isPre hs
    have heo := strIndex_isPre he
    have heNil : e ≠ [] := ne_nil_of_not_isInf hea
    have hr' : r = o.take (i + s.length) ++ '\n' :: (a ++ '\n' :: o.drop j) := by
      rw [hr]
      simp [List.append_assoc]
    have hPlen : (o.take (i + s.length)).length = i + s.length := by
      rw [List.length_take]
      omega
    have hrs : strIndex r s = some i := by
      apply strIndex_intro
      · rw [hr',
          drop_app_le (show i ≤ (o.take (i + s.length)).length by rw [hPlen]; omega),
          drop_of_take_occ hso]
        exact isPre_app s _
      · intro k hk hocc
        rw [hr'] at hocc
        have h2 := occ_in_left
          (show k ≤ (o.take (i + s.length)).length by rw [hPlen]; omega) hns hocc
        rw [List.drop_take] at h2
        exact strIndex_min hs k hk (h2.trans (take_isPre _ _))
    have hPe : ∀ k, ¬ e <+: (o.take (i + s.length)).drop k := by
      intro k hk
      have h3 : e <+: o.drop k := by
        rw [List.drop_take] at hk
        exact hk.trans (take_isPre _ _)
      have hkj : j ≤ k := by
        by_contra hlt
        exact strIndex_min he k (by omega) h3
      have h4 := List.IsPrefix.length_le hk
      rw [List.length_drop, hPlen] at h4
      exact heNil (List.length_eq_zero.mp (by omega))
    have hre : strIndex r e
        = some ((0 + (a.length + 1)) + ((o.take (i + s.length)).length + 1)) := by
      rw [hr', strIndex_seg hne hPe,
        strIndex_seg hne (noOcc_of_not_isInf hea),
        strIndex_zero heo]
      rfl
    rw [injectContent_replace_eq hrs hre]
    have hP : r.take (i + s.length) = o.take (i + s.length) := by
      rw [hr']
      exact take_app_of_len hPlen.symm
    have hS : r.drop ((0 + (a.length + 1)) + ((o.take (i + s.length)).length + 1))
        = o.drop j := by
      have hpos : (0 + (a.length + 1)) + ((o.take (i + s.length)).length + 1)
          = (o.take (i + s.length)).length + (a.length + 2) := by omega
      rw [hr', hpos, drop_blk]
    rw [hP, hS, hr]

/-- Claim C6 witness: a realistic well-formed document is a fixed point
of a second run. -/
theorem c6_witness :
    injectContent (str "A\nS\nnew\nE\nB") (str "new") (str "S") (str "E")
      = .ok (str "A\nS\nnew\nE\nB") :=
  c6_idempotent (by decide) (by decide) (by decide) (by decide)
    (by
      intro i j h1 h2
      have hi : (2 : Nat) = i := Option.some.inj
        ((show strIndex (str "A\nS\nold\nE\nB") (str "S") = some 2 from rfl).symm.trans h1)
      have hj : (8 : Nat) = j := Option.some.inj
        ((show strIndex (str "A\nS\nold\nE\nB") (str "E") = some 8 from rfl).symm.trans h2)
      subst hi
      subst hj
      decide)
    (show injectContent (str "A\nS\nold\nE\nB") (str "new") (str "S") (str "E")
        = .ok (str "A\nS\nnew\nE\nB") from rfl)

end MdInject
